import Mathlib

/-!
Verification development for the agent orchestration subsystem of the
streamlit_cb repository (agent_engine.py together with the chat handler of
app.py).  Text is modelled as a list of characters; Python string helpers
(strip, split, lower, substring search, slicing) are embedded as executable
functions with the same semantics.  External collaborators (the HTTP
transport, the language model, the LangChain reasoning loop) are modelled as
explicit parameters or outcome values, so every function of the source
becomes a pure, executable Lean definition.
-/

/-- Text is a list of characters (Python str). -/
abbrev Str := List Char

/-- Whitespace characters stripped by the Python str.strip() default and
matched by the regex class backslash-s on ASCII text. -/
def pyIsSpace (c : Char) : Bool :=
  c = ' ' || c = '\t' || c = '\n' || c = '\r' || c = '\x0b' || c = '\x0c'

/-- Strip trailing characters satisfying p, as Python str.rstrip does. -/
def rstripBy (p : Char → Bool) : Str → Str
  | [] => []
  | a :: t =>
    match rstripBy p t with
    | [] => if p a then [] else [a]
    | r => a :: r

/-- Strip characters satisfying p from both ends, as Python str.strip(chars). -/
def stripBy (p : Char → Bool) (s : Str) : Str :=
  rstripBy p (s.dropWhile p)

/-- Python str.strip() with the default whitespace character set. -/
def pyStrip (s : Str) : Str := stripBy pyIsSpace s

/-- Character set of the Python call str.strip(dash-space) in generate_plan. -/
def isDashSpace (c : Char) : Bool := c = '-' || c = ' '

/-- Python s.strip(dash-space): dashes and spaces removed from both ends. -/
def stripDashSpace (s : Str) : Str := stripBy isDashSpace s

/-- Python text.split(newline): split into lines at every newline character;
the empty text yields one empty line, as in Python. -/
def splitLines : Str → List Str
  | [] => [[]]
  | c :: rest =>
    match splitLines rest with
    | [] => [[c]]
    | line :: lines =>
      if c = '\n' then [] :: line :: lines else (c :: line) :: lines

/-- Python sep.join(pieces). -/
def joinWith (sep : Str) : List Str → Str
  | [] => []
  | [x] => x
  | x :: xs => x ++ sep ++ joinWith sep xs

/-- Per-character ASCII lowering, Python str.lower on ASCII text. -/
def pyLower (s : Str) : Str := s.map Char.toLower

/-- First index of needle as a contiguous substring of hay, Python str.find
(wrapped in Option instead of the -1 sentinel). -/
def findSub : Str → Str → Option Nat
  | hay, needle =>
    match hay with
    | [] => if needle.isEmpty then some 0 else none
    | _ :: rest =>
      if needle.isPrefixOf hay then some 0
      else (findSub rest needle).map (· + 1)

/-- Python hay[a:b] for 0 ≤ a ≤ b: drop a characters then keep b - a. -/
def pySlice (s : Str) (a b : Nat) : Str := (s.drop a).take (b - a)

/-- Python code-point comparison of strings: lexLe a b is a ≤ b. -/
def lexLe : Str → Str → Bool
  | [], _ => true
  | _ :: _, [] => false
  | a :: as, b :: bs =>
    if a < b then true else if b < a then false else lexLe as bs

/-- Propositional form of lexLe, the order used by Python sorted(). -/
def LexLe (a b : Str) : Prop := lexLe a b = true

instance : DecidableRel LexLe := fun a b => inferInstanceAs (Decidable (lexLe a b = true))

/-- Strict code-point comparison of strings: lexLt a b is a < b. -/
def lexLt : Str → Str → Bool
  | _, [] => false
  | [], _ :: _ => true
  | a :: as, b :: bs =>
    if a < b then true else if b < a then false else lexLt as bs

/-- Propositional form of lexLt. -/
def LexLt (a b : Str) : Prop := lexLt a b = true

instance : DecidableRel LexLt := fun a b => inferInstanceAs (Decidable (lexLt a b = true))

/-- Python sorted(): any correct sort for a total order; embedded as
insertion sort over the code-point order. -/
def pySorted (l : List Str) : List Str := l.insertionSort LexLe

-- ---------------------------------------------------------------------------
-- brave_search (agent_engine.py lines 27-45)
-- ---------------------------------------------------------------------------

/-- One entry of the parsed JSON array web.results, with the three fields the
source reads (a missing field renders as the text None, which is still text). -/
structure SearchResult where
  title : Str
  description : Str
  url : Str

/-- Outcome of the requests.get call: either a response carrying a status
code and the parsed results, or a transport failure (timeout, connection
error), which in Python raises out of requests.get. -/
inductive HttpOutcome where
  | response (status : Nat) (results : List SearchResult)
  | transportFailure

/-- Decimal rendering of a status code, as the Python f-string interpolates it. -/
def natText (n : Nat) : Str := (Nat.repr n).data

/-- Failure text returned by brave_search on a non-200 status. -/
def braveFailText (status : Nat) : Str :=
  "(Brave search failed: ".toList ++ natText status ++ ")".toList

/-- Success formatting of brave_search: one title/description/url group per
result, groups joined with a newline. -/
def braveFormat (results : List SearchResult) : Str :=
  joinWith "\n".toList
    (results.map fun res =>
      res.title ++ "\n".toList ++ res.description ++ "\n".toList ++ res.url ++ "\n".toList)

/-- brave_search: issues one HTTP request (its outcome is the parameter);
a transport failure raises (propagates as an error), a non-200 status is
converted to a short failure text, and a 200 response is formatted. -/
def brave_search (query : Str) (count : Nat) (outcome : HttpOutcome) : Except Unit Str :=
  match outcome with
  | .transportFailure => .error ()
  | .response status results =>
    if status ≠ 200 then .ok (braveFailText status)
    else .ok (braveFormat results)

-- ---------------------------------------------------------------------------
-- build_document_search (agent_engine.py lines 51-69)
-- ---------------------------------------------------------------------------

/-- Content of one uploaded document: free text, or a DataFrame whose
to_csv(index=False) serialization is the carried text (pandas is external;
the serialization is the value the source immediately computes from it). -/
inductive DocContent where
  | text (s : Str)
  | frame (csv : Str)
deriving DecidableEq

/-- Textual form used for matching: the text itself, or the CSV text. -/
def textualForm : DocContent → Str
  | .text s => s
  | .frame csv => csv

/-- Case-insensitive containment test the source applies to one document. -/
def occursIn (query : Str) (content : DocContent) : Bool :=
  (findSub (pyLower (textualForm content)) (pyLower query)).isSome

/-- Fixed no-match sentinel of the document search. -/
def noMatchSentinel : Str := "No match in uploaded documents.".toList

/-- Snippet built for one (name, content) pair, or none when the query does
not occur: for text, a window of the original content around the first match
of the lowered query in the lowered content; for a DataFrame, a fixed note. -/
def docSnippet (queryLower : Str) (nf : Str × DocContent) : Option Str :=
  match nf.2 with
  | .text content =>
    match findSub (pyLower content) queryLower with
    | some idx =>
      some ("From ".toList ++ nf.1 ++ ": …".toList
        ++ pySlice content (idx - 120) (idx + 400) ++ "…".toList)
    | none => none
  | .frame csv =>
    if (findSub (pyLower csv) queryLower).isSome then
      some ("Query found in DataFrame ".toList ++ nf.1 ++ " (omitted for brevity)".toList)
    else none

/-- The closure returned by build_document_search: collect a snippet per
matching document in iteration order; join with newlines, or return the
sentinel when nothing matched. -/
def searchDocuments (files : List (Str × DocContent)) (query : Str) : Str :=
  let snippets := files.filterMap (docSnippet (pyLower query))
  match snippets with
  | [] => noMatchSentinel
  | _ => joinWith "\n".toList snippets

-- ---------------------------------------------------------------------------
-- generate_plan (agent_engine.py lines 80-91)
-- ---------------------------------------------------------------------------

/-- Parsing of the model response text in generate_plan: strip the whole
text, split into lines, keep lines with a non-whitespace character, strip
dashes and spaces from both ends of each kept line. -/
def parsePlan (content : Str) : List Str :=
  let text := pyStrip content
  ((splitLines text).filter (fun s => !(pyStrip s).isEmpty)).map stripDashSpace

/-- generate_plan: one call to the model (its outcome is the parameter);
a model failure propagates to the caller, a successful response is parsed
into plan steps. -/
def generate_plan (modelOutcome : Except Unit Str) : Except Unit (List Str) :=
  match modelOutcome with
  | .error e => .error e
  | .ok content => .ok (parsePlan content)

/-- Stated from the claim wording, for comparison with the source: keep the
non-empty lines and strip only LEADING dashes and spaces from each line. -/
def claimParsePlan (content : Str) : List Str :=
  ((splitLines content).filter (fun s => !(pyStrip s).isEmpty)).map
    (List.dropWhile isDashSpace)

-- ---------------------------------------------------------------------------
-- Citation extraction (agent_engine.py lines 145-148)
-- ---------------------------------------------------------------------------

/-- The two scheme prefixes generated by the regex https?:// . -/
def schemeHttps : Str := ['h', 't', 't', 'p', 's', ':', '/', '/']

/-- The plain scheme prefix http:// . -/
def schemeHttp : Str := ['h', 't', 't', 'p', ':', '/', '/']

/-- Non-whitespace test for the regex class backslash-S. -/
def nonSpace (c : Char) : Bool := !pyIsSpace c

/-- Match of the regex https?:// followed by one or more non-whitespace
characters at the START of s: the matched text, or none. -/
def matchUrl (s : Str) : Option Str :=
  if schemeHttps.isPrefixOf s then
    match (s.drop 8).takeWhile nonSpace with
    | [] => none
    | body => some (schemeHttps ++ body)
  else if schemeHttp.isPrefixOf s then
    match (s.drop 7).takeWhile nonSpace with
    | [] => none
    | body => some (schemeHttp ++ body)
  else none

/-- Left-to-right non-overlapping scan of re.findall: on a match, continue
after the matched text, else advance one character.  The fuel argument (the
length of the scanned text suffices) keeps the recursion structural. -/
def findUrlsAux : Nat → Str → List Str
  | 0, _ => []
  | _ + 1, [] => []
  | fuel + 1, c :: rest =>
    match matchUrl (c :: rest) with
    | some url => url :: findUrlsAux fuel (rest.drop (url.length - 1))
    | none => findUrlsAux fuel rest

/-- re.findall of the URL pattern over the whole answer text. -/
def findUrls (s : Str) : List Str := findUrlsAux s.length s

/-- Citation extraction of run_agent: found URLs, deduplicated (set),
sorted (Python sorted), capped at the first 5. -/
def extractCitations (answer : Str) : List Str :=
  (pySorted (findUrls answer).dedup).take 5

/-- A well-shaped URL match: one of the two scheme prefixes followed by a
non-empty run of non-whitespace characters. -/
def GoodUrl (u : Str) : Prop :=
  (∃ body, body ≠ [] ∧ (∀ c ∈ body, pyIsSpace c = false) ∧ u = schemeHttps ++ body)
  ∨ (∃ body, body ≠ [] ∧ (∀ c ∈ body, pyIsSpace c = false) ∧ u = schemeHttp ++ body)

-- ---------------------------------------------------------------------------
-- Agent cache (_get_agent, agent_engine.py lines 96-126)
-- ---------------------------------------------------------------------------

/-- One conversation turn of the session memory (ConversationHistory). -/
inductive ChatTurn where
  | user (content : Str)
  | assistant (content : Str)
deriving DecidableEq

/-- A cached agent: its identity (allocation number, standing in for Python
object identity) and its conversation memory. -/
structure Agent where
  id : Nat
  memory : List ChatTurn
deriving DecidableEq

/-- Process-wide engine state: the module-level agent cache and the next
fresh identity.  The cache key is the sorted list of document names, the
content of the Python text str(sorted(files.keys())), which determines and
is determined by that sorted list. -/
structure EngineState where
  cache : List (List Str × Agent)
  nextId : Nat
deriving DecidableEq

/-- The empty module-level cache at import time. -/
def initialEngineState : EngineState := ⟨[], 0⟩

/-- Cache key of a document-name list: its sorted form. -/
def sortKey (names : List Str) : List Str := names.insertionSort LexLe

/-- Dictionary lookup by key. -/
def lookupKey (key : List Str) : List (List Str × Agent) → Option Agent
  | [] => none
  | (k, a) :: rest => if k = key then some a else lookupKey key rest

/-- The _get_agent function: return the cached agent for the key of the
current document names, or create one with fresh memory, cache it under the
key and return it. -/
def getAgent (names : List Str) (st : EngineState) : Agent × EngineState :=
  let key := sortKey names
  match lookupKey key st.cache with
  | some a => (a, st)
  | none =>
    let a : Agent := ⟨st.nextId, []⟩
    (a, ⟨(key, a) :: st.cache, st.nextId + 1⟩)

/-- Well-formedness of the engine state: cache keys are distinct (one entry
per distinct name set), agent identities are distinct, and every cached
identity is below the next fresh one. -/
def EngineWF (st : EngineState) : Prop :=
  (st.cache.map Prod.fst).Nodup
  ∧ (st.cache.map (fun e => e.2.id)).Nodup
  ∧ ∀ e ∈ st.cache, e.2.id < st.nextId

instance : DecidablePred EngineWF := fun st =>
  inferInstanceAs (Decidable (_ ∧ _ ∧ ∀ e ∈ st.cache, e.2.id < st.nextId))

-- ---------------------------------------------------------------------------
-- run_agent (agent_engine.py lines 129-149) and the chat handler of app.py
-- ---------------------------------------------------------------------------

/-- An external chat record entry: role and content text. -/
structure Msg where
  role : Str
  content : Str
deriving DecidableEq

/-- Streamlit session state as run_agent reads it: the files mapping and the
persistent chat history. -/
structure StState where
  files : List (Str × DocContent)
  chatHistory : List Msg

/-- Role tagging of the preload loop: a user turn for role user, an
assistant turn for every other role. -/
def tagTurn (m : Msg) : ChatTurn :=
  if m.role = "user".toList then ChatTurn.user m.content
  else ChatTurn.assistant m.content

/-- The preload loop of run_agent: append each prior turn, tagged by role,
to the agent's memory in original order. -/
def preloadMemory (history : List Msg) (mem : List ChatTurn) : List ChatTurn :=
  history.foldl (fun acc m => acc ++ [tagTurn m]) mem

/-- Modelled from the spec: the reasoning loop behind agent.run is external
LangChain code absent from the repository; per the specification the question
is appended to ConversationHistory as a user turn when run starts, and the
final answer is not appended by this component. -/
def agentRunMemory (mem : List ChatTurn) (question : Str) : List ChatTurn :=
  mem ++ [ChatTurn.user question]

/-- Write the updated memory back into the cached agent under its key,
modelling Python's in-place mutation of the cached instance. -/
def setMemory (key : List Str) (mem : List ChatTurn) :
    List (List Str × Agent) → List (List Str × Agent)
  | [] => []
  | (k, a) :: rest =>
    if k = key then (k, { a with memory := mem }) :: rest
    else (k, a) :: setMemory key mem rest

/-- Result of run_agent: the returned pair (answer, citation list), the
session state it read (returned unchanged: the function never writes it),
the engine state after the call, and the conversation memory of the agent
after the call. -/
structure RunResult where
  answer : Str
  sources : List Str
  stateAfter : StState
  engineAfter : EngineState
  sessionHistory : List ChatTurn

/-- run_agent: fetch (or create) the cached agent for the current files,
preload the persistent chat history into its memory, run the reasoning loop
(the model's answer function is the parameter answerOf), and extract the
citation list from the answer.  The session state is only read. -/
def run_agent (answerOf : List ChatTurn → Str → Str) (question : Str)
    (st : StState) (es : EngineState) : RunResult :=
  let names := st.files.map Prod.fst
  let (agent, es1) := getAgent names es
  let mem1 := preloadMemory st.chatHistory agent.memory
  let mem2 := agentRunMemory mem1 question
  let answer := answerOf mem2 question
  let es2 : EngineState := ⟨setMemory (sortKey names) mem2 es1.cache, es1.nextId⟩
  { answer := answer
    sources := extractCitations answer
    stateAfter := st
    engineAfter := es2
    sessionHistory := mem2 }

/-- The chat handler of app.py (success path): append the user prompt to the
persistent history, generate and display the plan (display only; planText is
the model response for the plan call), run the agent, then append the
assistant answer to the persistent history. -/
def handleChat (answerOf : List ChatTurn → Str → Str) (planText : Str)
    (prompt : Str) (st : StState) (es : EngineState) : StState × EngineState × Str :=
  let st1 : StState := { st with chatHistory := st.chatHistory ++ [⟨"user".toList, prompt⟩] }
  let _plan := parsePlan planText
  let r := run_agent answerOf prompt st1 es
  let st2 : StState :=
    { r.stateAfter with chatHistory := r.stateAfter.chatHistory ++ [⟨"assistant".toList, r.answer⟩] }
  (st2, r.engineAfter, r.answer)

-- ---------------------------------------------------------------------------
-- Order lemmas for the code-point comparison
-- ---------------------------------------------------------------------------

theorem lexLe_total (a b : Str) : lexLe a b = true ∨ lexLe b a = true := by
  induction a generalizing b with
  | nil => left; rfl
  | cons x xs ih =>
    cases b with
    | nil => right; rfl
    | cons y ys =>
      rcases lt_trichotomy x y with h | h | h
      · left; simp [lexLe, h]
      · subst h
        rcases ih ys with h' | h'
        · left; simp [lexLe, lt_irrefl, h']
        · right; simp [lexLe, lt_irrefl, h']
      · right; simp [lexLe, h, asymm h]

theorem lexLe_antisymm {a b : Str} (hab : lexLe a b = true) (hba : lexLe b a = true) :
    a = b := by
  induction a generalizing b with
  | nil =>
    cases b with
    | nil => rfl
    | cons y ys => simp [lexLe] at hba
  | cons x xs ih =>
    cases b with
    | nil => simp [lexLe] at hab
    | cons y ys =>
      rcases lt_trichotomy x y with h | h | h
      · simp [lexLe, h, asymm h] at hba
      · subst h
        simp [lexLe, lt_irrefl] at hab hba
        simp [ih hab hba]
      · simp [lexLe, h, asymm h] at hab

theorem lexLe_trans {a b c : Str} (hab : lexLe a b = true) (hbc : lexLe b c = true) :
    lexLe a c = true := by
  induction a generalizing b c with
  | nil => rfl
  | cons x xs ih =>
    cases b with
    | nil => simp [lexLe] at hab
    | cons y ys =>
      cases c with
      | nil => simp [lexLe] at hbc
      | cons z zs =>
        rcases lt_trichotomy x y with hxy | hxy | hxy
        · rcases lt_trichotomy y z with hyz | hyz | hyz
          · simp [lexLe, lt_trans hxy hyz]
          · subst hyz; simp [lexLe, hxy]
          · simp [lexLe, hyz, asymm hyz] at hbc
        · subst hxy
          rcases lt_trichotomy x z with hyz | hyz | hyz
          · simp [lexLe, hyz]
          · subst hyz
            simp [lexLe, lt_irrefl] at hab hbc ⊢
            exact ih hab hbc
          · simp [lexLe, hyz, asymm hyz] at hbc
        · simp [lexLe, hxy, asymm hxy] at hab

instance : IsTotal Str LexLe := ⟨lexLe_total⟩

instance : IsTrans Str LexLe := ⟨fun _ _ _ => lexLe_trans⟩

instance : IsAntisymm Str LexLe := ⟨fun _ _ => lexLe_antisymm⟩

instance : IsRefl Str LexLe :=
  ⟨fun a => by rcases lexLe_total a a with h | h <;> exact h⟩

theorem lexLt_iff (a b : Str) : lexLt a b = true ↔ lexLe a b = true ∧ a ≠ b := by
  induction a generalizing b with
  | nil =>
    cases b with
    | nil => simp [lexLt, lexLe]
    | cons y ys => simp [lexLt, lexLe]
  | cons x xs ih =>
    cases b with
    | nil => simp [lexLt, lexLe]
    | cons y ys =>
      rcases lt_trichotomy x y with h | h | h
      · simp [lexLt, lexLe, h, ne_of_lt h]
      · subst h
        simp [lexLt, lexLe, lt_irrefl, ih ys]
      · simp [lexLt, lexLe, h, asymm h]

-- ---------------------------------------------------------------------------
-- Cache-key lemmas
-- ---------------------------------------------------------------------------

theorem sortKey_perm (l : List Str) : (sortKey l).Perm l :=
  List.perm_insertionSort LexLe l

theorem sortKey_sorted (l : List Str) : List.Sorted LexLe (sortKey l) :=
  List.sorted_insertionSort LexLe l

theorem sortKey_eq_of_perm {l1 l2 : List Str} (h : l1.Perm l2) :
    sortKey l1 = sortKey l2 :=
  List.eq_of_perm_of_sorted (((sortKey_perm l1).trans h).trans (sortKey_perm l2).symm)
    (sortKey_sorted l1) (sortKey_sorted l2)

theorem perm_of_sortKey_eq {l1 l2 : List Str} (h : sortKey l1 = sortKey l2) :
    l1.Perm l2 :=
  ((sortKey_perm l1).symm.trans (h ▸ List.Perm.refl (sortKey l1))).trans (sortKey_perm l2)

theorem lookupKey_mem {key : List Str} {c : List (List Str × Agent)} {a : Agent}
    (h : lookupKey key c = some a) : (key, a) ∈ c := by
  induction c with
  | nil => simp [lookupKey] at h
  | cons e rest ih =>
    obtain ⟨k, b⟩ := e
    by_cases hk : k = key
    · subst hk
      rw [lookupKey, if_pos rfl] at h
      cases h
      exact List.mem_cons_self _ _
    · rw [lookupKey, if_neg hk] at h
      exact List.mem_cons_of_mem _ (ih h)

theorem lookupKey_none {key : List Str} {c : List (List Str × Agent)}
    (h : lookupKey key c = none) : key ∉ c.map Prod.fst := by
  induction c with
  | nil => simp
  | cons e rest ih =>
    obtain ⟨k, b⟩ := e
    by_cases hk : k = key
    · subst hk; rw [lookupKey, if_pos rfl] at h; cases h
    · rw [lookupKey, if_neg hk] at h
      simp only [List.map_cons, List.mem_cons]
      rintro (hkey | hmem)
      · exact hk hkey.symm
      · exact ih h hmem

theorem map_nodup_inj {α β : Type} {f : α → β} {l : List α}
    (h : (l.map f).Nodup) {a b : α} (ha : a ∈ l) (hb : b ∈ l) (hf : f a = f b) :
    a = b := by
  induction l with
  | nil => simp at ha
  | cons x t ih =>
    simp only [List.map_cons, List.nodup_cons] at h
    rcases List.mem_cons.mp ha with rfl | ha' <;> rcases List.mem_cons.mp hb with rfl | hb'
    · rfl
    · exact absurd (hf ▸ List.mem_map_of_mem f hb') h.1
    · exact absurd (hf ▸ List.mem_map_of_mem f ha') h.1
    · exact ih h.2 ha' hb'

theorem getAgent_of_lookup_some {names : List Str} {es : EngineState} {a : Agent}
    (h : lookupKey (sortKey names) es.cache = some a) :
    getAgent names es = (a, es) := by
  simp [getAgent, h]

theorem getAgent_of_lookup_none {names : List Str} {es : EngineState}
    (h : lookupKey (sortKey names) es.cache = none) :
    getAgent names es =
      (⟨es.nextId, []⟩,
        ⟨(sortKey names, (⟨es.nextId, []⟩ : Agent)) :: es.cache, es.nextId + 1⟩) := by
  simp [getAgent, h]

theorem getAgent_WF {names : List Str} {es : EngineState} (hwf : EngineWF es) :
    EngineWF (getAgent names es).2 := by
  cases h : lookupKey (sortKey names) es.cache with
  | some a => rw [getAgent_of_lookup_some h]; exact hwf
  | none =>
    rw [getAgent_of_lookup_none h]
    obtain ⟨hkeys, hids, hlt⟩ := hwf
    refine ⟨?_, ?_, ?_⟩
    · exact List.nodup_cons.mpr ⟨lookupKey_none h, hkeys⟩
    · refine List.nodup_cons.mpr ⟨?_, hids⟩
      intro hmem
      rcases List.mem_map.mp hmem with ⟨e, he, heq⟩
      exact absurd heq (Nat.ne_of_lt (hlt e he))
    · intro e he
      rcases List.mem_cons.mp he with rfl | he'
      · exact Nat.lt_succ_self _
      · exact Nat.lt_succ_of_lt (hlt e he')

/-- C1: for every document-name set, calling the agent-cache lookup twice
with mappings having the same set of names (in any insertion order) returns
the identical cached agent instance (and leaves the cache untouched);
calling it with a different name set returns a distinct instance; and
well-formedness (exactly one cache entry per distinct key, distinct
identities) is preserved, so exactly one instance exists per distinct name
set for the process lifetime. -/
theorem claim1_agent_cache_identity (es : EngineState) (names1 names2 : List Str)
    (hwf : EngineWF es) (h1 : names1.Nodup) (h2 : names2.Nodup) :
    ((∀ x, x ∈ names1 ↔ x ∈ names2) →
        (getAgent names2 (getAgent names1 es).2).1 = (getAgent names1 es).1
        ∧ (getAgent names2 (getAgent names1 es).2).2 = (getAgent names1 es).2)
    ∧ (¬ (∀ x, x ∈ names1 ↔ x ∈ names2) →
        (getAgent names2 (getAgent names1 es).2).1.id ≠ (getAgent names1 es).1.id)
    ∧ EngineWF (getAgent names1 es).2 := by
  refine ⟨?_, ?_, getAgent_WF hwf⟩
  · intro hset
    have hperm : names1.Perm names2 := (List.perm_ext_iff_of_nodup h1 h2).mpr hset
    have hkey : sortKey names2 = sortKey names1 := (sortKey_eq_of_perm hperm).symm
    cases h : lookupKey (sortKey names1) es.cache with
    | some a =>
      rw [getAgent_of_lookup_some h, getAgent_of_lookup_some (by rw [hkey]; exact h)]
      exact ⟨rfl, rfl⟩
    | none =>
      rw [getAgent_of_lookup_none h]
      have hhit : lookupKey (sortKey names2)
          ((⟨(sortKey names1, (⟨es.nextId, []⟩ : Agent)) :: es.cache,
            es.nextId + 1⟩ : EngineState)).cache = some ⟨es.nextId, []⟩ := by
        show lookupKey (sortKey names2)
          ((sortKey names1, (⟨es.nextId, []⟩ : Agent)) :: es.cache) = _
        rw [lookupKey, if_pos hkey.symm]
      rw [getAgent_of_lookup_some hhit]
      exact ⟨rfl, rfl⟩
  · intro hset
    have hkey : sortKey names1 ≠ sortKey names2 := by
      intro he
      exact hset ((List.perm_ext_iff_of_nodup h1 h2).mp (perm_of_sortKey_eq he))
    cases h : lookupKey (sortKey names1) es.cache with
    | some a =>
      rw [getAgent_of_lookup_some h]
      cases h' : lookupKey (sortKey names2) es.cache with
      | some b =>
        rw [getAgent_of_lookup_some h']
        intro hid
        have heq :=
          map_nodup_inj hwf.2.1 (lookupKey_mem h') (lookupKey_mem h) hid
        exact hkey (congrArg Prod.fst heq).symm
      | none =>
        rw [getAgent_of_lookup_none h']
        have hlt := hwf.2.2 _ (lookupKey_mem h)
        exact Nat.ne_of_gt hlt
    | none =>
      rw [getAgent_of_lookup_none h]
      have hstep : lookupKey (sortKey names2)
          ((⟨(sortKey names1, (⟨es.nextId, []⟩ : Agent)) :: es.cache,
            es.nextId + 1⟩ : EngineState)).cache
          = lookupKey (sortKey names2) es.cache := by
        show lookupKey (sortKey names2)
          ((sortKey names1, (⟨es.nextId, []⟩ : Agent)) :: es.cache) = _
        rw [lookupKey, if_neg hkey]
      cases h' : lookupKey (sortKey names2) es.cache with
      | some b =>
        rw [getAgent_of_lookup_some (hstep.trans h')]
        have hlt := hwf.2.2 _ (lookupKey_mem h')
        exact Nat.ne_of_lt hlt
      | none =>
        rw [getAgent_of_lookup_none (hstep.trans h')]
        exact Nat.succ_ne_self es.nextId

/-- Witness for C1 at a concrete input: the same two names in both orders
return the identical agent on the empty initial cache. -/
theorem claim1_agent_cache_identity_witness :
    (getAgent ["b".toList, "a".toList] (getAgent ["a".toList, "b".toList] initialEngineState).2).1
      = (getAgent ["a".toList, "b".toList] initialEngineState).1 :=
  ((claim1_agent_cache_identity initialEngineState ["a".toList, "b".toList]
      ["b".toList, "a".toList] (by decide) (by decide) (by decide)).1
    (by intro x; simp [List.mem_cons, or_comm])).1

/-- C2 counterexample: on a transport failure (timeout, connection error)
brave_search does not return a failure text; the exception from the
requests call propagates, refuting the never-raises half of the claim. -/
theorem claim2_counterexample :
    brave_search ("capital of France".toList) 5 HttpOutcome.transportFailure
      = Except.error () := rfl

/-- C2 amended: on a non-success HTTP status brave_search returns the short
human-readable failure text (never empty) instead of raising; a transport
failure, by contrast, propagates as an exception to the caller. -/
theorem claim2_amended_brave_search (query : Str) (count : Nat) (status : Nat)
    (results : List SearchResult) (h : status ≠ 200) :
    brave_search query count (.response status results) = .ok (braveFailText status)
    ∧ braveFailText status ≠ []
    ∧ ∀ (q : Str) (c : Nat),
        brave_search q c HttpOutcome.transportFailure = Except.error () := by
  refine ⟨?_, ?_, fun q c => rfl⟩
  · simp [brave_search, h]
  · simp [braveFailText]

/-- Witness for C2 amended at status 500. -/
theorem claim2_amended_brave_search_witness :
    brave_search ("weather".toList) 5 (.response 500 [])
      = .ok (braveFailText 500) :=
  (claim2_amended_brave_search ("weather".toList) 5 500 [] (by decide)).1

-- ---------------------------------------------------------------------------
-- Strip and line-split lemmas
-- ---------------------------------------------------------------------------

theorem dropWhile_head_false {p : Char → Bool} {l : Str} {c : Char}
    (h : (l.dropWhile p).head? = some c) : p c = false := by
  induction l with
  | nil => simp at h
  | cons a t ih =>
    by_cases ha : p a
    · rw [List.dropWhile_cons, if_pos ha] at h
      exact ih h
    · rw [List.dropWhile_cons, if_neg ha] at h
      cases h
      simpa using ha

theorem dropWhile_idem {p : Char → Bool} (l : Str) :
    (l.dropWhile p).dropWhile p = l.dropWhile p := by
  cases h : l.dropWhile p with
  | nil => simp
  | cons a t =>
    have ha : p a = false := dropWhile_head_false (by rw [h]; rfl)
    rw [List.dropWhile_cons, if_neg (by simp [ha])]

theorem rstripBy_cons (p : Char → Bool) (a : Char) (t : Str) :
    rstripBy p (a :: t) = match rstripBy p t with
      | [] => if p a then [] else [a]
      | r => a :: r := rfl

theorem rstripBy_idem {p : Char → Bool} (l : Str) :
    rstripBy p (rstripBy p l) = rstripBy p l := by
  induction l with
  | nil => rfl
  | cons a t ih =>
    cases h : rstripBy p t with
    | nil =>
      by_cases ha : p a
      · simp [rstripBy_cons, h, ha]; rfl
      · simp [rstripBy_cons, h, ha]
        rfl
    | cons b t' =>
      have ih' : rstripBy p (b :: t') = b :: t' := by rw [← h]; exact ih
      have hc : rstripBy p (a :: t) = a :: b :: t' := by rw [rstripBy_cons, h]
      rw [hc, rstripBy_cons, ih']

theorem rstripBy_head? {p : Char → Bool} {l : Str}
    (h : rstripBy p l ≠ []) : (rstripBy p l).head? = l.head? := by
  cases l with
  | nil => simp [rstripBy] at h
  | cons a t =>
    cases h' : rstripBy p t with
    | nil =>
      by_cases ha : p a
      · rw [rstripBy, h'] at h; simp [ha] at h
      · simp [rstripBy, h', ha]
    | cons b t' => simp [rstripBy, h']

theorem stripBy_idem {p : Char → Bool} (l : Str) :
    stripBy p (stripBy p l) = stripBy p l := by
  unfold stripBy
  cases hr : rstripBy p (l.dropWhile p) with
  | nil => rfl
  | cons b t' =>
    have hne : rstripBy p (l.dropWhile p) ≠ [] := by rw [hr]; simp
    have hh : (l.dropWhile p).head? = some b := by
      rw [← rstripBy_head? hne, hr]; rfl
    have hb : p b = false := dropWhile_head_false hh
    rw [List.dropWhile_cons, if_neg (by simp [hb])]
    have hidem := rstripBy_idem (p := p) (l.dropWhile p)
    rw [hr] at hidem
    exact hidem

theorem mem_dropWhile_of_not {p : Char → Bool} {l : Str} {c : Char}
    (hc : c ∈ l) (hp : p c = false) : c ∈ l.dropWhile p := by
  induction l with
  | nil => simp at hc
  | cons a t ih =>
    by_cases ha : p a
    · rw [List.dropWhile_cons, if_pos ha]
      rcases List.mem_cons.mp hc with rfl | hc'
      · rw [ha] at hp; cases hp
      · exact ih hc'
    · rw [List.dropWhile_cons, if_neg ha]
      exact hc

theorem mem_rstripBy_of_not {p : Char → Bool} {l : Str} {c : Char}
    (hc : c ∈ l) (hp : p c = false) : c ∈ rstripBy p l := by
  induction l with
  | nil => simp at hc
  | cons a t ih =>
    rcases List.mem_cons.mp hc with rfl | hc'
    · cases h : rstripBy p t with
      | nil => simp [rstripBy, h, hp]
      | cons b t' => simp [rstripBy, h]
    · have hmem := ih hc'
      cases h : rstripBy p t with
      | nil => rw [h] at hmem; simp at hmem
      | cons b t' =>
        rw [h] at hmem
        simp [rstripBy, h, List.mem_cons]
        right
        exact List.mem_cons.mp hmem

theorem mem_stripBy_of_not {p : Char → Bool} {l : Str} {c : Char}
    (hc : c ∈ l) (hp : p c = false) : c ∈ stripBy p l :=
  mem_rstripBy_of_not (mem_dropWhile_of_not hc hp) hp

theorem stripBy_ne_nil_of_mem {p : Char → Bool} {l : Str} {c : Char}
    (hc : c ∈ l) (hp : p c = false) : stripBy p l ≠ [] :=
  List.ne_nil_of_mem (mem_stripBy_of_not hc hp)

theorem splitLines_ne_nil (s : Str) : splitLines s ≠ [] := by
  cases s with
  | nil => simp [splitLines]
  | cons c rest =>
    cases h : splitLines rest with
    | nil => simp [splitLines, h]
    | cons line lines =>
      by_cases hc : c = '\n' <;> simp [splitLines, h, hc]

theorem splitLines_cons (c : Char) (rest : Str) :
    splitLines (c :: rest) = match splitLines rest with
      | [] => [[c]]
      | line :: lines =>
        if c = '\n' then [] :: line :: lines else (c :: line) :: lines := rfl

theorem mem_splitLines {s : Str} {c : Char} (hc : c ∈ s) (hnl : c ≠ '\n') :
    ∃ line ∈ splitLines s, c ∈ line := by
  induction s with
  | nil => simp at hc
  | cons a rest ih =>
    cases h : splitLines rest with
    | nil => exact absurd h (splitLines_ne_nil rest)
    | cons line lines =>
      by_cases ha : a = '\n'
      · have hsl : splitLines (a :: rest) = [] :: line :: lines := by
          simp [splitLines_cons, h, ha]
        rcases List.mem_cons.mp hc with heq | hc'
        · exact absurd (heq.trans ha) hnl
        · obtain ⟨l', hl', hcl⟩ := ih hc'
          rw [h] at hl'
          refine ⟨l', ?_, hcl⟩
          rw [hsl]
          exact List.mem_cons_of_mem _ hl'
      · have hsl : splitLines (a :: rest) = (a :: line) :: lines := by
          simp [splitLines_cons, h, ha]
        rcases List.mem_cons.mp hc with heq | hc'
        · refine ⟨a :: line, ?_, ?_⟩
          · rw [hsl]; exact List.mem_cons_self _ _
          · rw [heq]; exact List.mem_cons_self _ _
        · obtain ⟨l', hl', hcl⟩ := ih hc'
          rw [h] at hl'
          rcases List.mem_cons.mp hl' with heq2 | hl''
          · refine ⟨a :: l', ?_, List.mem_cons_of_mem a hcl⟩
            rw [hsl, heq2]
            exact List.mem_cons_self _ _
          · refine ⟨l', ?_, hcl⟩
            rw [hsl]
            exact List.mem_cons_of_mem _ hl''

/-- C3 counterexample: a successful model call whose response is whitespace
only makes generate_plan return an empty step list: an empty silent success,
refuting the never-empty half of the claim. -/
theorem claim3_counterexample :
    generate_plan (Except.ok ("\n  \n".toList)) = Except.ok ([] : List Str) := rfl

/-- C3 amended: when the model call succeeds and the response contains at
least one non-whitespace character, generate_plan returns a non-empty
sequence of steps; when the response is whitespace only the returned
sequence is empty; when the model call fails the error propagates to the
caller (no retry, no silent success). -/
theorem claim3_amended_generate_plan :
    (∀ content : Str, (∃ c ∈ content, pyIsSpace c = false) →
        generate_plan (Except.ok content) = Except.ok (parsePlan content)
        ∧ parsePlan content ≠ [])
    ∧ ∀ e : Unit, generate_plan (Except.error e) = Except.error e := by
  constructor
  · intro content hex
    obtain ⟨c, hc, hp⟩ := hex
    refine ⟨rfl, ?_⟩
    have hcs : c ∈ pyStrip content := mem_stripBy_of_not hc hp
    have hnl : c ≠ '\n' := by
      intro heq
      rw [heq] at hp
      simp [pyIsSpace] at hp
    obtain ⟨line, hline, hcl⟩ := mem_splitLines hcs hnl
    have hps : pyStrip line ≠ [] := List.ne_nil_of_mem (mem_stripBy_of_not hcl hp)
    have hfil : line ∈ (splitLines (pyStrip content)).filter (fun s => !(pyStrip s).isEmpty) := by
      refine List.mem_filter.mpr ⟨hline, ?_⟩
      cases hcase : pyStrip line with
      | nil => exact absurd hcase hps
      | cons x xs => simp [hcase]
    exact List.ne_nil_of_mem (List.mem_map_of_mem stripDashSpace hfil)
  · intro e
    rfl

/-- Witness for C3 amended at a one-word model response. -/
theorem claim3_amended_generate_plan_witness :
    generate_plan (Except.ok ("plan".toList)) = Except.ok (parsePlan ("plan".toList))
    ∧ parsePlan ("plan".toList) ≠ [] :=
  claim3_amended_generate_plan.1 ("plan".toList) ⟨'p', by decide, by decide⟩

/-- C9 counterexample: on the model response consisting of the line
step one dash, the code strips the trailing dash (and spaces) as well, so
the result differs from the claimed leading-only stripping. -/
theorem claim9_counterexample :
    parsePlan ("step one -".toList) ≠ claimParsePlan ("step one -".toList) := by
  decide

/-- C9 amended: generate_plan returns, in order, the lines of the
whitespace-trimmed response that contain a non-whitespace character, each
with dashes and spaces stripped from BOTH ends (not only leading list
markup); consequently no returned step retains a leading or trailing dash
or space. -/
theorem claim9_amended_plan_parsing (content : Str) :
    parsePlan content
      = ((splitLines (pyStrip content)).filter (fun s => !(pyStrip s).isEmpty)).map
          stripDashSpace
    ∧ ∀ s ∈ parsePlan content, stripDashSpace s = s := by
  refine ⟨rfl, ?_⟩
  intro s hs
  have hs' : s ∈ ((splitLines (pyStrip content)).filter
      (fun s => !(pyStrip s).isEmpty)).map stripDashSpace := hs
  obtain ⟨line, _hline, heq⟩ := List.mem_map.mp hs'
  rw [← heq]
  exact stripBy_idem line

/-- Witness for C9 amended: the parsed step of a dash-wrapped line is fully
stripped on both ends. -/
theorem claim9_amended_plan_parsing_witness :
    stripDashSpace ("step one".toList) = "step one".toList :=
  (claim9_amended_plan_parsing ("- step one -".toList)).2 ("step one".toList) (by decide)

-- ---------------------------------------------------------------------------
-- Document-search lemmas and claim C4
-- ---------------------------------------------------------------------------

theorem joinWith_cons_cons (sep x y : Str) (t : List Str) :
    joinWith sep (x :: y :: t) = x ++ sep ++ joinWith sep (y :: t) := rfl

theorem exists_joinWith_cons (sep s0 : Str) (rest : List Str) :
    ∃ z, joinWith sep (s0 :: rest) = s0 ++ z := by
  cases rest with
  | nil => exact ⟨[], (List.append_nil s0).symm⟩
  | cons y t => exact ⟨sep ++ joinWith sep (y :: t), by rw [joinWith_cons_cons]; simp⟩

theorem mem_infix_joinWith {sep a : Str} {L : List Str} (h : a ∈ L) :
    a <:+: joinWith sep L := by
  induction L with
  | nil => simp at h
  | cons x xs ih =>
    rcases List.mem_cons.mp h with rfl | h'
    · obtain ⟨z, hz⟩ := exists_joinWith_cons sep a xs
      rw [hz]
      exact ⟨[], z, rfl⟩
    · cases xs with
      | nil => simp at h'
      | cons y t =>
        have hin : a <:+: joinWith sep (y :: t) := ih h'
        rw [joinWith_cons_cons]
        obtain ⟨s, u, e⟩ := hin
        exact ⟨(x ++ sep) ++ s, u, by rw [← e]; simp⟩

theorem docSnippet_none_iff {query : Str} (nf : Str × DocContent) :
    docSnippet (pyLower query) nf = none ↔ occursIn query nf.2 = false := by
  obtain ⟨name, content⟩ := nf
  cases content with
  | text c =>
    cases hf : findSub (pyLower c) (pyLower query) with
    | none => simp [docSnippet, occursIn, textualForm, hf]
    | some idx => simp [docSnippet, occursIn, textualForm, hf]
  | frame csv =>
    cases hf : findSub (pyLower csv) (pyLower query) with
    | none => simp [docSnippet, occursIn, textualForm, hf]
    | some idx => simp [docSnippet, occursIn, textualForm, hf]

theorem docSnippet_contains_name {q s : Str} {nf : Str × DocContent}
    (hds : docSnippet q nf = some s) : nf.1 <:+: s := by
  obtain ⟨name, content⟩ := nf
  cases content with
  | text c =>
    cases hf : findSub (pyLower c) q with
    | none => simp [docSnippet, hf] at hds
    | some idx =>
      simp [docSnippet, hf] at hds
      exact ⟨"From ".toList,
        ": …".toList ++ pySlice c (idx - 120) (idx + 400) ++ "…".toList,
        by rw [← hds]; simp⟩
  | frame csv =>
    cases hf : findSub (pyLower csv) q with
    | none => simp [docSnippet, hf] at hds
    | some idx =>
      simp [docSnippet, hf] at hds
      exact ⟨"Query found in DataFrame ".toList, " (omitted for brevity)".toList,
        by rw [← hds]; simp⟩

theorem docSnippet_head_shape {q s : Str} {nf : Str × DocContent}
    (hds : docSnippet q nf = some s) :
    (∃ t, s = 'F' :: t) ∨ ∃ t, s = 'Q' :: t := by
  obtain ⟨name, content⟩ := nf
  cases content with
  | text c =>
    cases hf : findSub (pyLower c) q with
    | none => simp [docSnippet, hf] at hds
    | some idx =>
      simp [docSnippet, hf] at hds
      exact Or.inl ⟨"rom ".toList ++ name ++ ": …".toList
        ++ pySlice c (idx - 120) (idx + 400) ++ "…".toList, by rw [← hds]; simp⟩
  | frame csv =>
    cases hf : findSub (pyLower csv) q with
    | none => simp [docSnippet, hf] at hds
    | some idx =>
      simp [docSnippet, hf] at hds
      exact Or.inr ⟨"uery found in DataFrame ".toList ++ name
        ++ " (omitted for brevity)".toList, by rw [← hds]; simp⟩

theorem searchDocuments_of_nil {files : List (Str × DocContent)} {query : Str}
    (h : files.filterMap (docSnippet (pyLower query)) = []) :
    searchDocuments files query = noMatchSentinel := by
  simp only [searchDocuments]
  rw [h]

theorem searchDocuments_of_cons {files : List (Str × DocContent)} {query : Str}
    {s0 : Str} {rest : List Str}
    (h : files.filterMap (docSnippet (pyLower query)) = s0 :: rest) :
    searchDocuments files query = joinWith "\n".toList (s0 :: rest) := by
  simp only [searchDocuments]
  rw [h]

/-- C4: for every document set and query, document search returns the fixed
non-empty no-match sentinel when the query (case-insensitively, on the
document's textual form) occurs in no document, and otherwise returns a
non-sentinel text that contains the name of each matching source document
as a contiguous substring. -/
theorem claim4_document_search (files : List (Str × DocContent)) (query : Str) :
    ((∀ f ∈ files, occursIn query f.2 = false) →
        searchDocuments files query = noMatchSentinel ∧ noMatchSentinel ≠ [])
    ∧ ((∃ f ∈ files, occursIn query f.2 = true) →
        searchDocuments files query ≠ noMatchSentinel
        ∧ ∀ f ∈ files, occursIn query f.2 = true →
            f.1 <:+: searchDocuments files query) := by
  constructor
  · intro hall
    have hnil : files.filterMap (docSnippet (pyLower query)) = [] := by
      rw [List.filterMap_eq_nil_iff]
      intro f hf
      exact (docSnippet_none_iff f).mpr (hall f hf)
    exact ⟨searchDocuments_of_nil hnil, by decide⟩
  · intro hex
    obtain ⟨f, hf, hocc⟩ := hex
    have hsome : ∃ s, docSnippet (pyLower query) f = some s := by
      cases hds : docSnippet (pyLower query) f with
      | none =>
        rw [docSnippet_none_iff f] at hds
        rw [hocc] at hds
        cases hds
      | some s => exact ⟨s, rfl⟩
    obtain ⟨s, hds⟩ := hsome
    have hmem : s ∈ files.filterMap (docSnippet (pyLower query)) :=
      List.mem_filterMap.mpr ⟨f, hf, hds⟩
    cases hsnip : files.filterMap (docSnippet (pyLower query)) with
    | nil => rw [hsnip] at hmem; simp at hmem
    | cons s0 rest =>
      have hres := searchDocuments_of_cons hsnip
      constructor
      · have hs0 : s0 ∈ files.filterMap (docSnippet (pyLower query)) := by
          rw [hsnip]; exact List.mem_cons_self _ _
        obtain ⟨f0, _hf0, hds0⟩ := List.mem_filterMap.mp hs0
        obtain ⟨z, hz⟩ := exists_joinWith_cons "\n".toList s0 rest
        rw [hres, hz]
        rcases docSnippet_head_shape hds0 with ⟨t, ht⟩ | ⟨t, ht⟩ <;> rw [ht] <;>
          · intro hcontra
            have := congrArg List.head? hcontra
            simp [noMatchSentinel] at this
      · intro f' hf' hocc'
        have hsome' : ∃ s', docSnippet (pyLower query) f' = some s' := by
          cases hds' : docSnippet (pyLower query) f' with
          | none =>
            rw [docSnippet_none_iff f'] at hds'
            rw [hocc'] at hds'
            cases hds'
          | some s' => exact ⟨s', rfl⟩
        obtain ⟨s', hds'⟩ := hsome'
        have hmem' : s' ∈ files.filterMap (docSnippet (pyLower query)) :=
          List.mem_filterMap.mpr ⟨f', hf', hds'⟩
        rw [hsnip] at hmem'
        have hinf : s' <:+: joinWith "\n".toList (s0 :: rest) :=
          mem_infix_joinWith hmem'
        rw [hres]
        exact (docSnippet_contains_name hds').trans hinf

/-- Witness for C4: a one-document set where the query occurs; the search
result is not the sentinel and contains the document name. -/
theorem claim4_document_search_witness :
    searchDocuments [("notes.txt".toList, DocContent.text "Project Zeus deadline".toList)]
        ("zeus".toList) ≠ noMatchSentinel :=
  ((claim4_document_search
      [("notes.txt".toList, DocContent.text "Project Zeus deadline".toList)]
      ("zeus".toList)).2
    ⟨("notes.txt".toList, DocContent.text "Project Zeus deadline".toList),
      by decide, by decide⟩).1

-- ---------------------------------------------------------------------------
-- URL scan lemmas
-- ---------------------------------------------------------------------------

theorem findUrlsAux_succ_cons (n : Nat) (c : Char) (rest : Str) :
    findUrlsAux (n + 1) (c :: rest) = match matchUrl (c :: rest) with
      | some url => url :: findUrlsAux n (rest.drop (url.length - 1))
      | none => findUrlsAux n rest := rfl

theorem findUrlsAux_stable (f1 : Nat) : ∀ (f2 : Nat) (s : Str),
    s.length ≤ f1 → s.length ≤ f2 → findUrlsAux f1 s = findUrlsAux f2 s := by
  induction f1 with
  | zero =>
    intro f2 s h1 _
    have hs : s = [] := List.eq_nil_of_length_eq_zero (Nat.le_zero.mp h1)
    subst hs
    cases f2 <;> rfl
  | succ n ih =>
    intro f2 s h1 h2
    cases s with
    | nil => cases f2 <;> rfl
    | cons c rest =>
      cases f2 with
      | zero => simp at h2
      | succ g =>
        have hr1 : rest.length ≤ n := by simp [List.length_cons] at h1; omega
        have hr2 : rest.length ≤ g := by simp [List.length_cons] at h2; omega
        cases hm : matchUrl (c :: rest) with
        | some url =>
          have hd : (rest.drop (url.length - 1)).length ≤ rest.length := by
            rw [List.length_drop]; exact Nat.sub_le _ _
          simp only [findUrlsAux_succ_cons, hm]
          rw [ih g _ (le_trans hd hr1) (le_trans hd hr2)]
        | none =>
          simp only [findUrlsAux_succ_cons, hm]
          exact ih g rest hr1 hr2

theorem findUrls_cons_some {c : Char} {rest url : Str}
    (hm : matchUrl (c :: rest) = some url) :
    findUrls (c :: rest) = url :: findUrls (rest.drop (url.length - 1)) := by
  show findUrlsAux (rest.length + 1) (c :: rest) = _
  simp only [findUrlsAux_succ_cons, hm]
  congr 1
  exact findUrlsAux_stable rest.length _ _
    (by rw [List.length_drop]; exact Nat.sub_le _ _) le_rfl

theorem findUrls_cons_none {c : Char} {rest : Str}
    (hm : matchUrl (c :: rest) = none) :
    findUrls (c :: rest) = findUrls rest := by
  show findUrlsAux (rest.length + 1) (c :: rest) = findUrlsAux rest.length rest
  simp only [findUrlsAux_succ_cons, hm]

theorem schemeHttps_isPrefixOf_append (X : Str) :
    schemeHttps.isPrefixOf (schemeHttps ++ X) = true :=
  List.isPrefixOf_iff_prefix.mpr (List.prefix_append _ _)

theorem schemeHttp_isPrefixOf_append (X : Str) :
    schemeHttp.isPrefixOf (schemeHttp ++ X) = true :=
  List.isPrefixOf_iff_prefix.mpr (List.prefix_append _ _)

theorem not_https_prefix_http (X : Str) :
    schemeHttps.isPrefixOf (schemeHttp ++ X) = false := rfl

theorem not_http_prefix_https (X : Str) :
    schemeHttp.isPrefixOf (schemeHttps ++ X) = false := rfl

theorem matchUrl_some_spec {s url : Str} (h : matchUrl s = some url) :
    url <+: s ∧ GoodUrl url := by
  by_cases h8 : schemeHttps.isPrefixOf s = true
  · have hpre : schemeHttps <+: s := List.isPrefixOf_iff_prefix.mp h8
    obtain ⟨t, ht⟩ := hpre
    have hdrop : s.drop 8 = t := by
      rw [← ht]
      exact List.drop_left schemeHttps t
    simp only [matchUrl] at h
    rw [if_pos h8, hdrop] at h
    cases hb : t.takeWhile nonSpace with
    | nil => rw [hb] at h; cases h
    | cons x xs =>
      rw [hb] at h
      have hurl : url = schemeHttps ++ x :: xs := by cases h; rfl
      constructor
      · rw [hurl, ← ht]
        have hxp : (x :: xs) <+: t := by rw [← hb]; exact List.takeWhile_prefix nonSpace
        obtain ⟨r, hr⟩ := hxp
        exact ⟨r, by rw [← hr]; simp⟩
      · refine Or.inl ⟨x :: xs, by simp, ?_, hurl⟩
        intro c hc
        have hc' : c ∈ t.takeWhile nonSpace := by rw [hb]; exact hc
        have := List.mem_takeWhile_imp hc'
        simpa [nonSpace] using this
  · by_cases h7 : schemeHttp.isPrefixOf s = true
    · have hpre : schemeHttp <+: s := List.isPrefixOf_iff_prefix.mp h7
      obtain ⟨t, ht⟩ := hpre
      have hdrop : s.drop 7 = t := by
        rw [← ht]
        exact List.drop_left schemeHttp t
      simp only [matchUrl] at h
      rw [if_neg h8, if_pos h7, hdrop] at h
      cases hb : t.takeWhile nonSpace with
      | nil => rw [hb] at h; cases h
      | cons x xs =>
        rw [hb] at h
        have hurl : url = schemeHttp ++ x :: xs := by cases h; rfl
        constructor
        · rw [hurl, ← ht]
          have hxp : (x :: xs) <+: t := by rw [← hb]; exact List.takeWhile_prefix nonSpace
          obtain ⟨r, hr⟩ := hxp
          exact ⟨r, by rw [← hr]; simp⟩
        · refine Or.inr ⟨x :: xs, by simp, ?_, hurl⟩
          intro c hc
          have hc' : c ∈ t.takeWhile nonSpace := by rw [hb]; exact hc
          have := List.mem_takeWhile_imp hc'
          simpa [nonSpace] using this
    · simp only [matchUrl] at h
      rw [if_neg h8, if_neg h7] at h
      cases h

theorem takeWhile_all {p : Char → Bool} {xs : Str} (h : ∀ c ∈ xs, p c = true) :
    xs.takeWhile p = xs := by
  induction xs with
  | nil => rfl
  | cons a t ih =>
    rw [List.takeWhile_cons, if_pos (h a (List.mem_cons_self a t))]
    rw [ih (fun c hc => h c (List.mem_cons_of_mem a hc))]

theorem takeWhile_append_stop {p : Char → Bool} {xs : Str} {y : Char} {ys : Str}
    (h : ∀ c ∈ xs, p c = true) (hy : p y = false) :
    (xs ++ y :: ys).takeWhile p = xs := by
  induction xs with
  | nil => simp [List.takeWhile_cons, hy]
  | cons a t ih =>
    rw [List.cons_append, List.takeWhile_cons, if_pos (h a (List.mem_cons_self a t))]
    rw [ih (fun c hc => h c (List.mem_cons_of_mem a hc))]

theorem matchUrl_goodUrl_append {u tail : Str} (hg : GoodUrl u)
    (ht : tail = [] ∨ ∃ t, tail = '\n' :: t) :
    matchUrl (u ++ tail) = some u := by
  have hbt : ∀ body : Str, (∀ c ∈ body, pyIsSpace c = false) →
      (body ++ tail).takeWhile nonSpace = body := by
    intro body hns
    rcases ht with rfl | ⟨t, rfl⟩
    · rw [List.append_nil]
      exact takeWhile_all (fun c hc => by simp [nonSpace, hns c hc])
    · exact takeWhile_append_stop (fun c hc => by simp [nonSpace, hns c hc]) (by decide)
  rcases hg with ⟨body, hne, hns, rfl⟩ | ⟨body, hne, hns, rfl⟩
  · rw [List.append_assoc]
    simp only [matchUrl]
    rw [if_pos (schemeHttps_isPrefixOf_append (body ++ tail))]
    have hdrop : (schemeHttps ++ (body ++ tail)).drop 8 = body ++ tail :=
      List.drop_left schemeHttps (body ++ tail)
    rw [hdrop, hbt body hns]
    cases hbody : body with
    | nil => exact absurd hbody hne
    | cons b bs => rfl
  · rw [List.append_assoc]
    simp only [matchUrl]
    rw [if_neg (by rw [not_https_prefix_http]; exact Bool.false_ne_true),
      if_pos (schemeHttp_isPrefixOf_append (body ++ tail))]
    have hdrop : (schemeHttp ++ (body ++ tail)).drop 7 = body ++ tail :=
      List.drop_left schemeHttp (body ++ tail)
    rw [hdrop, hbt body hns]
    cases hbody : body with
    | nil => exact absurd hbody hne
    | cons b bs => rfl

theorem findUrls_goodUrl_cons {u tail : Str} (hg : GoodUrl u)
    (ht : tail = [] ∨ ∃ t, tail = '\n' :: t) :
    findUrls (u ++ tail) = u :: findUrls tail := by
  have hm := matchUrl_goodUrl_append hg ht
  have hu : ∃ c u', u = c :: u' := by
    rcases hg with ⟨body, _, _, rfl⟩ | ⟨body, _, _, rfl⟩
    · exact ⟨'h', _, rfl⟩
    · exact ⟨'h', _, rfl⟩
  obtain ⟨c, u', rfl⟩ := hu
  rw [List.cons_append] at hm ⊢
  rw [findUrls_cons_some hm]
  congr 1
  have hlen : (c :: u').length - 1 = u'.length := by simp
  rw [hlen]
  rw [List.drop_left u' tail]

theorem findUrls_newline_cons (t : Str) : findUrls ('\n' :: t) = findUrls t :=
  findUrls_cons_none rfl

theorem findUrls_joinWith {us : List Str} (h : ∀ u ∈ us, GoodUrl u) :
    findUrls (joinWith "\n".toList us) = us := by
  induction us with
  | nil => rfl
  | cons u rest ih =>
    cases rest with
    | nil =>
      have hstep := findUrls_goodUrl_cons (h u (List.mem_cons_self u [])) (Or.inl rfl)
      calc findUrls (joinWith "\n".toList [u]) = findUrls (u ++ []) := by
            rw [List.append_nil]; rfl
        _ = u :: findUrls [] := hstep
        _ = [u] := rfl
    | cons v rest' =>
      have hJ : joinWith "\n".toList (u :: v :: rest')
          = u ++ ('\n' :: joinWith "\n".toList (v :: rest')) := by
        rw [joinWith_cons_cons, List.append_assoc]
        rfl
      rw [hJ]
      rw [findUrls_goodUrl_cons (h u (List.mem_cons_self u _)) (Or.inr ⟨_, rfl⟩)]
      rw [findUrls_newline_cons]
      rw [ih (fun w hw => h w (List.mem_cons_of_mem u hw))]

theorem findUrlsAux_mem : ∀ (fuel : Nat) (s u : Str),
    s.length ≤ fuel → u ∈ findUrlsAux fuel s → GoodUrl u ∧ u <:+: s := by
  intro fuel
  induction fuel with
  | zero =>
    intro s u _ hu
    simp [findUrlsAux] at hu
  | succ n ih =>
    intro s u h hu
    cases s with
    | nil => simp [findUrlsAux] at hu
    | cons c rest =>
      have hr : rest.length ≤ n := by simp [List.length_cons] at h; omega
      cases hm : matchUrl (c :: rest) with
      | some url =>
        rw [findUrlsAux_succ_cons] at hu
        simp only [hm] at hu
        rcases List.mem_cons.mp hu with rfl | hu'
        · obtain ⟨hpre, hgood⟩ := matchUrl_some_spec hm
          exact ⟨hgood, hpre.isInfix⟩
        · have hd : (rest.drop (url.length - 1)).length ≤ n := by
            rw [List.length_drop]; exact le_trans (Nat.sub_le _ _) hr
          obtain ⟨hg, hinf⟩ := ih _ u hd hu'
          exact ⟨hg, List.infix_cons (hinf.trans (List.drop_suffix _ _).isInfix)⟩
      | none =>
        rw [findUrlsAux_succ_cons] at hu
        simp only [hm] at hu
        obtain ⟨hg, hinf⟩ := ih rest u hr hu
        exact ⟨hg, List.infix_cons hinf⟩

theorem findUrls_mem {s u : Str} (hu : u ∈ findUrls s) : GoodUrl u ∧ u <:+: s :=
  findUrlsAux_mem s.length s u le_rfl hu

-- ---------------------------------------------------------------------------
-- Citation extraction lemmas and claims C5, C6, C10
-- ---------------------------------------------------------------------------

theorem extractCitations_sorted (a : Str) :
    List.Pairwise LexLe (extractCitations a) :=
  List.Pairwise.sublist (List.take_sublist 5 _)
    (List.sorted_insertionSort LexLe ((findUrls a).dedup))

theorem extractCitations_nodup (a : Str) : (extractCitations a).Nodup :=
  List.Nodup.sublist (List.take_sublist 5 _)
    ((List.perm_insertionSort LexLe ((findUrls a).dedup)).symm.nodup
      (List.nodup_dedup _))

theorem extractCitations_pairwise_lt (a : Str) :
    List.Pairwise LexLt (extractCitations a) :=
  List.Pairwise.imp (fun h => (lexLt_iff _ _).mpr ⟨h.1, h.2⟩)
    ((extractCitations_sorted a).and (extractCitations_nodup a))

theorem extractCitations_length_le (a : Str) : (extractCitations a).length ≤ 5 := by
  simp [extractCitations, List.length_take]

theorem mem_extractCitations {a u : Str} (hu : u ∈ extractCitations a) :
    u ∈ findUrls a := by
  have h1 : u ∈ pySorted (findUrls a).dedup := List.take_subset 5 _ hu
  have h2 : u ∈ (findUrls a).dedup :=
    (List.perm_insertionSort LexLe _).mem_iff.mp h1
  exact List.mem_dedup.mp h2

theorem extractCitations_complete {a u : Str}
    (hlen : (findUrls a).dedup.length ≤ 5) (hu : u ∈ findUrls a) :
    u ∈ extractCitations a := by
  have hsl : (pySorted (findUrls a).dedup).length ≤ 5 := by
    show (List.insertionSort LexLe ((findUrls a).dedup)).length ≤ 5
    rw [(List.perm_insertionSort LexLe _).length_eq]
    exact hlen
  show u ∈ (pySorted (findUrls a).dedup).take 5
  rw [List.take_of_length_le hsl]
  exact (List.perm_insertionSort LexLe _).mem_iff.mpr (List.mem_dedup.mpr hu)

theorem extractCitations_good {a u : Str} (hu : u ∈ extractCitations a) :
    GoodUrl u :=
  (findUrls_mem (mem_extractCitations hu)).1

/-- C5: for every answer text, citation extraction returns exactly the
deduplicated, code-point-sorted, five-capped list of the URL-shaped
substrings found in the answer: the result is strictly sorted without
duplicates, has at most 5 entries, consists only of found URLs, and when at
most 5 distinct URLs are found, contains every found URL; being a pure
function of the answer text it is deterministic and side-effect-free. -/
theorem claim5_citation_extraction (answer : Str) :
    extractCitations answer = (pySorted (findUrls answer).dedup).take 5
    ∧ (extractCitations answer).length ≤ 5
    ∧ List.Pairwise LexLt (extractCitations answer)
    ∧ (∀ u ∈ extractCitations answer, u ∈ findUrls answer)
    ∧ ((findUrls answer).dedup.length ≤ 5 →
        ∀ u ∈ findUrls answer, u ∈ extractCitations answer) :=
  ⟨rfl, extractCitations_length_le answer, extractCitations_pairwise_lt answer,
    fun _ hu => mem_extractCitations hu,
    fun hlen _ hu => extractCitations_complete hlen hu⟩

/-- Witness for C5: both URLs of a two-URL answer appear in the result. -/
theorem claim5_citation_extraction_witness :
    "https://a".toList ∈ extractCitations ("see https://b and https://a".toList) :=
  (claim5_citation_extraction ("see https://b and https://a".toList)).2.2.2.2
    (by decide) ("https://a".toList) (by decide)

/-- C6: citation extraction is idempotent: joining the extracted list with
newlines and extracting again returns the same list (same URLs, same order,
same cap). -/
theorem claim6_citation_idempotent (answer : Str) :
    extractCitations (joinWith "\n".toList (extractCitations answer))
      = extractCitations answer := by
  have hgood : ∀ u ∈ extractCitations answer, GoodUrl u :=
    fun _ hu => extractCitations_good hu
  have hfind := findUrls_joinWith hgood
  show (pySorted (findUrls (joinWith "\n".toList (extractCitations answer))).dedup).take 5
    = extractCitations answer
  rw [hfind, List.Nodup.dedup (extractCitations_nodup answer)]
  simp only [pySorted]
  rw [List.eq_of_perm_of_sorted (List.perm_insertionSort LexLe _)
      (List.sorted_insertionSort LexLe _) (extractCitations_sorted answer),
    List.take_of_length_le (extractCitations_length_le answer)]

/-- C10: every returned citation starts with one of the two URL schemes,
contains no whitespace character, occurs as a contiguous substring of the
answer, and the list is strictly increasing in code-point order (hence has
no duplicates). -/
theorem claim10_citation_wellformed (answer : Str) :
    (∀ u ∈ extractCitations answer,
        (schemeHttp <+: u ∨ schemeHttps <+: u)
        ∧ (∀ c ∈ u, pyIsSpace c = false)
        ∧ u <:+: answer)
    ∧ List.Pairwise LexLt (extractCitations answer) := by
  refine ⟨?_, extractCitations_pairwise_lt answer⟩
  intro u hu
  obtain ⟨hg, hinf⟩ := findUrls_mem (mem_extractCitations hu)
  refine ⟨?_, ?_, hinf⟩
  · rcases hg with ⟨body, _, _, rfl⟩ | ⟨body, _, _, rfl⟩
    · exact Or.inr (List.prefix_append _ _)
    · exact Or.inl (List.prefix_append _ _)
  · have hsch8 : ∀ c ∈ schemeHttps, pyIsSpace c = false := by decide
    have hsch7 : ∀ c ∈ schemeHttp, pyIsSpace c = false := by decide
    rcases hg with ⟨body, _, hns, rfl⟩ | ⟨body, _, hns, rfl⟩
    · intro c hc
      rcases List.mem_append.mp hc with hcs | hcb
      · exact hsch8 c hcs
      · exact hns c hcb
    · intro c hc
      rcases List.mem_append.mp hc with hcs | hcb
      · exact hsch7 c hcs
      · exact hns c hcb

/-- Witness for C10 at a concrete answer with one URL. -/
theorem claim10_citation_wellformed_witness :
    (schemeHttp <+: "https://a".toList ∨ schemeHttps <+: "https://a".toList)
    ∧ (∀ c ∈ "https://a".toList, pyIsSpace c = false)
    ∧ "https://a".toList <:+: ("x https://a y".toList) :=
  (claim10_citation_wellformed ("x https://a y".toList)).1
    ("https://a".toList) (by decide)

-- ---------------------------------------------------------------------------
-- Memory preload and persistent history: claims C7, C8
-- ---------------------------------------------------------------------------

theorem preloadMemory_eq (history : List Msg) (mem : List ChatTurn) :
    preloadMemory history mem = mem ++ history.map tagTurn := by
  induction history generalizing mem with
  | nil => simp [preloadMemory]
  | cons m rest ih =>
    show preloadMemory rest (mem ++ [tagTurn m]) = _
    rw [ih]
    simp

/-- C7: preloading an external history record into a freshly created session
and then running the question produces a ConversationHistory whose prefix is
exactly the preloaded turns, each tagged by its original role (user turns as
user messages, all other roles as assistant messages), in original order,
followed by the new question as a user turn. -/
theorem claim7_history_preload (answerOf : List ChatTurn → Str → Str) (question : Str)
    (st : StState) (es : EngineState)
    (hfresh : lookupKey (sortKey (st.files.map Prod.fst)) es.cache = none) :
    (run_agent answerOf question st es).sessionHistory
      = st.chatHistory.map tagTurn ++ [ChatTurn.user question]
    ∧ (run_agent answerOf question st es).sessionHistory.take st.chatHistory.length
      = st.chatHistory.map tagTurn
    ∧ (∀ m : Msg, m.role = "user".toList → tagTurn m = ChatTurn.user m.content)
    ∧ (∀ m : Msg, m.role ≠ "user".toList → tagTurn m = ChatTurn.assistant m.content) := by
  have hmem : (run_agent answerOf question st es).sessionHistory
      = preloadMemory st.chatHistory (getAgent (st.files.map Prod.fst) es).1.memory
        ++ [ChatTurn.user question] := rfl
  have hagent : (getAgent (st.files.map Prod.fst) es).1.memory = [] := by
    rw [getAgent_of_lookup_none hfresh]
  have h1 : (run_agent answerOf question st es).sessionHistory
      = st.chatHistory.map tagTurn ++ [ChatTurn.user question] := by
    rw [hmem, hagent, preloadMemory_eq]
    simp
  refine ⟨h1, ?_, fun m hm => by simp only [tagTurn, if_pos hm],
    fun m hm => by simp only [tagTurn, if_neg hm]⟩
  rw [h1, ← List.length_map st.chatHistory tagTurn, List.take_left]

/-- Witness for C7: one preloaded user turn on the empty cache. -/
theorem claim7_history_preload_witness :
    (run_agent (fun _ _ => []) ("q".toList)
        ⟨[], [⟨"user".toList, "hi".toList⟩]⟩ initialEngineState).sessionHistory
      = ([⟨"user".toList, "hi".toList⟩] : List Msg).map tagTurn
        ++ [ChatTurn.user ("q".toList)] :=
  (claim7_history_preload (fun _ _ => []) ("q".toList)
    ⟨[], [⟨"user".toList, "hi".toList⟩]⟩ initialEngineState (by decide)).1

/-- C8: run_agent returns the session state unchanged (it only reads the
files and the chat history), and the conversation memory after the run is
the preload plus the question: the final answer is not appended by the agent
component.  The chat handler of app.py is the one that records both the
user question and the final answer, appending exactly those two turns to the
persistent history. -/
theorem claim8_answer_recording (answerOf : List ChatTurn → Str → Str)
    (planText question : Str) (st : StState) (es : EngineState) :
    (run_agent answerOf question st es).stateAfter = st
    ∧ (run_agent answerOf question st es).sessionHistory
        = preloadMemory st.chatHistory
            (getAgent (st.files.map Prod.fst) es).1.memory ++ [ChatTurn.user question]
    ∧ (handleChat answerOf planText question st es).1.chatHistory
        = st.chatHistory
          ++ [⟨"user".toList, question⟩,
              ⟨"assistant".toList,
                (run_agent answerOf question
                  { st with chatHistory :=
                      st.chatHistory ++ [⟨"user".toList, question⟩] } es).answer⟩] := by
  refine ⟨rfl, rfl, ?_⟩
  rw [show (handleChat answerOf planText question st es).1.chatHistory
      = (st.chatHistory ++ [(⟨"user".toList, question⟩ : Msg)])
        ++ [(⟨"assistant".toList,
            (run_agent answerOf question
              { st with chatHistory :=
                  st.chatHistory ++ [⟨"user".toList, question⟩] } es).answer⟩ : Msg)]
    from rfl, List.append_assoc]
  rfl
